import Mathlib

/-!
Shallow embedding of the citation pipeline implemented in
src/ChatBot/src/components/ChatMessage.tsx: the splitter on the literal
separator string, the source-block parser, the citation matcher, and the
interaction-state handlers (feedback toggle, expand/collapse toggle),
together with proofs of the specified properties.

JavaScript strings are modelled as Lean strings (lists of characters);
the JS string primitives the component uses (split, trim, includes,
toLowerCase, and the regex scans for bracketed tokens and URLs) are given
explicit executable models below.  JS string length counts UTF-16 code
units while Lean counts code points; the two agree on all inputs without
astral-plane characters, which is the domain modelled here.
-/

/-- Characters removed by JS String.prototype.trim: ASCII whitespace plus
NBSP, BOM and the unicode line separators. -/
def jsIsWhitespace (c : Char) : Bool :=
  c = ' ' || c = '\t' || c = '\n' || c = '\r' || c = '\x0b' || c = '\x0c' ||
  c = '\u00A0' || c = '\uFEFF' || c = '\u2028' || c = '\u2029'

/-- Model of JS String.prototype.trim on character lists. -/
def jsTrimL (l : List Char) : List Char :=
  ((l.dropWhile jsIsWhitespace).reverse.dropWhile jsIsWhitespace).reverse

/-- Model of JS s.trim(). -/
def jsTrim (s : String) : String := String.mk (jsTrimL s.data)

/-- Does the second list start with the first one?  (Executable, used by
the split and includes models.) -/
def startsWith : List Char → List Char → Bool
  | [], _ => true
  | _ :: _, [] => false
  | p :: ps, c :: cs => p == c && startsWith ps cs

/-- Does pat occur as a contiguous run somewhere in the list? -/
def hasOccur (pat : List Char) : List Char → Bool
  | [] => pat.isEmpty
  | c :: cs => startsWith pat (c :: cs) || hasOccur pat cs

/-- Propositional form of substring occurrence. -/
def occursIn (pat l : List Char) : Prop := ∃ u v, l = u ++ pat ++ v

/-- Model of JS s.includes(pat). -/
def jsIncludes (s pat : String) : Bool := hasOccur pat.data s.data

/-- Model of JS s.toLowerCase() (ASCII case mapping; the fixed phrases
compared against are ASCII). -/
def jsToLower (s : String) : String := String.mk (s.data.map Char.toLower)

/-- State machine for JS String.prototype.split with a string separator:
scans left to right, emits the accumulated piece at each leftmost
non-overlapping occurrence of the separator, and skips the separator's
remaining characters via the numeric skip state. -/
def splitGo (sep : List Char) : List Char → Nat → List Char → List (List Char)
  | [], _, acc => [acc.reverse]
  | _ :: cs, skip + 1, acc => splitGo sep cs skip acc
  | c :: cs, 0, acc =>
    if startsWith sep (c :: cs) && !sep.isEmpty then
      acc.reverse :: splitGo sep cs (sep.length - 1) []
    else
      splitGo sep cs 0 (c :: acc)

/-- Model of JS s.split(sep) on character lists (an empty separator splits
into single characters, as in JS). -/
def jsSplitL (sep s : List Char) : List (List Char) :=
  if sep.isEmpty then s.map (fun c => [c]) else splitGo sep s 0 []

/-- Model of JS s.split(sep). -/
def jsSplit (sep s : String) : List String := (jsSplitL sep.data s.data).map String.mk

/-- Characters on which the JS regex dot fails (line terminators), ending a
bracket-token attempt. -/
def jsRegexTerm (c : Char) : Bool :=
  c = '\n' || c = '\r' || c = '\u2028' || c = '\u2029'

/-- State machine for the global regex scan for bracketed tokens performed
by matchAll with the bracket-token regex: outside an attempt the scanner
looks for an opening bracket; inside an attempt it accumulates the lazy
group until the first closing bracket (emitting the group) or a line
terminator (the attempt fails; any retry inside the failed span also fails
before the same terminator, so scanning resumes at the terminator). -/
def scanBr : Option (List Char) → List Char → List String
  | _, [] => []
  | none, c :: rest =>
    if c = '[' then scanBr (some []) rest else scanBr none rest
  | some pend, c :: rest =>
    if c = ']' then String.mk pend.reverse :: scanBr none rest
    else if jsRegexTerm c then scanBr none rest
    else scanBr (some (c :: pend)) rest

/-- All bracketed-token contents in the text, in match order. -/
def scanBrackets (s : List Char) : List String := scanBr none s

/-- First bracket-token match of the full match span (start index and
length), used to model the non-global replace of the first bracketed token
in the title line. -/
def bracketSpan : Nat → Option Nat → List Char → Option (Nat × Nat)
  | _, _, [] => none
  | i, none, c :: rest =>
    if c = '[' then bracketSpan (i + 1) (some i) rest else bracketSpan (i + 1) none rest
  | i, some st, c :: rest =>
    if c = ']' then some (st, i + 1 - st)
    else if jsRegexTerm c then bracketSpan (i + 1) none rest
    else bracketSpan (i + 1) (some st) rest

/-- Model of titleLine.replace with the bracket-token regex and an empty
replacement: the first match, brackets included, is removed. -/
def removeFirstBracket (s : String) : String :=
  match bracketSpan 0 none s.data with
  | none => s
  | some (st, len) => String.mk (s.data.take st ++ s.data.drop (st + len))

/-- Literal scheme of a URL match: http:// or https:// (the optional s is
tried greedily, then dropped, exactly as the regex does). -/
def stripScheme : List Char → Option (List Char × List Char)
  | 'h' :: 't' :: 't' :: 'p' :: 's' :: ':' :: '/' :: '/' :: rest =>
    some (['h', 't', 't', 'p', 's', ':', '/', '/'], rest)
  | 'h' :: 't' :: 't' :: 'p' :: ':' :: '/' :: '/' :: rest =>
    some (['h', 't', 't', 'p', ':', '/', '/'], rest)
  | _ => none

/-- If a URL match of the component's URL regex starts at the head of the
list, return its group: the scheme followed by the maximal nonempty run of
characters other than a closing parenthesis, which must be followed by a
closing parenthesis. -/
def urlAt : List Char → Option (List Char)
  | '(' :: rest =>
    match stripScheme rest with
    | some (scheme, rest2) =>
      let run := rest2.takeWhile (fun c => c ≠ ')')
      if run.isEmpty then none
      else if (rest2.drop run.length).isEmpty then none
      else some (scheme ++ run)
    | none => none
  | _ => none

/-- Leftmost URL match: index where it starts and its group. -/
def findUrl : Nat → List Char → Option (Nat × List Char)
  | _, [] => none
  | i, c :: rest =>
    match urlAt (c :: rest) with
    | some g => some (i, g)
    | none => findUrl (i + 1) rest

/-- One parsed source record, with the fields built in visibleSourceItems. -/
structure SourceRecord where
  id : String
  title : String
  details : String
  url : Option String
deriving DecidableEq, Repr

/-- Model of JS Array.prototype.join with a newline separator. -/
def joinLines : List String → String
  | [] => ""
  | [l] => l
  | l :: ls => l ++ "\n" ++ joinLines ls

/-- Record construction from the URL-stripped chunk text: trimmed non-blank
lines, title line first, id from the first bracketed token of the title
line, details from the later lines that do not contain the navigation
phrase, title with the first bracketed token removed. -/
def recordOfClean (cleanSource : String) (url : Option String) : SourceRecord :=
  let lines := ((jsSplit "\n" cleanSource).map jsTrim).filter (fun l => !l.isEmpty)
  let titleLine := lines.headD ""
  let idStr := (scanBrackets titleLine.data).headD ""
  let details := joinLines
    ((lines.drop 1).filter (fun l => !(jsIncludes (jsToLower l) "click to view")))
  let title := jsTrim (removeFirstBracket titleLine)
  { id := idStr, title := title, details := details, url := url }

/-- Parse one surviving chunk: extract the leftmost URL match if any, strip
the full match from the chunk and trim, then build the record. -/
def parseChunk (s : String) : SourceRecord :=
  match findUrl 0 s.data with
  | some (i, g) =>
    recordOfClean (jsTrim (String.mk (s.data.take i ++ s.data.drop (i + (g.length + 2)))))
      (some (jsTrim (String.mk g)))
  | none => recordOfClean s none

/-- The literal separator between the answer and the citation block. -/
def relatedDocsSep : String := "**Related Documents:**"

/-- All parts of the content split on the separator (JS split keeps every
part; the component destructures only the first two). -/
def splitParts (content : String) : List String := jsSplit relatedDocsSep content

/-- The mainAnswer binding: the part before the first separator occurrence. -/
def mainAnswerOf (content : String) : String := (splitParts content).headD ""

/-- The sourcesRaw binding: the part between the first and second separator
occurrences; the empty string also models the undefined produced by the JS
destructuring when the separator is absent (both are falsy in the guard). -/
def sourcesRawOf (content : String) : String := (splitParts content).getD 1 ""

/-- The set of cited ids: contents of every bracketed token in mainAnswer
(a list here; the JS Set is only ever used through membership). -/
def citedIdsOf (mainAnswer : String) : List String := scanBrackets mainAnswer.data

/-- Candidate chunks: split the raw block on the record separator, trim,
keep chunks containing an opening bracket and longer than ten characters. -/
def sourceChunks (sourcesRaw : String) : List String :=
  ((jsSplit "---" sourcesRaw).map jsTrim).filter
    (fun s => jsIncludes s "[" && decide (10 < s.length))

/-- All parsed source records, in chunk order. -/
def parseSources (sourcesRaw : String) : List SourceRecord :=
  (sourceChunks sourcesRaw).map parseChunk

/-- The role of a message. -/
inductive Role
  | user
  | assistant
deriving DecidableEq, Repr

/-- The visibleSourceItems memo: empty when sourcesRaw is falsy or the
message is a user message; otherwise the parsed records whose id is truthy
and cited in mainAnswer, in parse order. -/
def visibleSourceItems (role : Role) (content : String) : List SourceRecord :=
  if sourcesRawOf content = "" ∨ role = Role.user then []
  else
    (parseSources (sourcesRawOf content)).filter
      (fun r => decide (r.id ≠ "" ∧ r.id ∈ citedIdsOf (mainAnswerOf content)))

/-- The feedback value of a message; the absent value models null. -/
inductive FeedbackValue
  | up
  | down
deriving DecidableEq, Repr

/-- Model of handleFeedback in ChatMessage.tsx: the first component is the
new feedback state, the second is the value passed to the onFeedback
callback, which the component invokes unconditionally whenever the callback
prop is provided (none models a null argument). -/
def handleFeedback (feedback : Option FeedbackValue) (t : FeedbackValue) :
    Option FeedbackValue × Option FeedbackValue :=
  let newFeedback := if feedback = some t then none else some t
  (newFeedback, newFeedback)

/-- Per-message interaction state: the expandedSources record (modelled as
an association list read through lookupFlag) and the feedback value. -/
structure MessageState where
  expandedSources : List (String × Bool)
  feedback : Option FeedbackValue
deriving DecidableEq, Repr

/-- Reading a flag from the expandedSources record: an absent key is falsy
in JS, so it reads as collapsed. -/
def lookupFlag (m : List (String × Bool)) (id : String) : Bool :=
  (m.lookup id).getD false

/-- Model of toggleSource: the spread with the computed key overrides the
flag stored under id with its negation and leaves everything else intact. -/
def toggleSource (st : MessageState) (id : String) : MessageState :=
  { st with expandedSources := (id, !(lookupFlag st.expandedSources id)) :: st.expandedSources }

/-! Basic facts about the string models. -/

theorem stringMk_data (s : String) : String.mk s.data = s := rfl

theorem stringData_append (s t : String) : (s ++ t).data = s.data ++ t.data := rfl

theorem startsWith_iff (p l : List Char) : startsWith p l = true ↔ ∃ t, l = p ++ t := by
  induction p generalizing l with
  | nil => exact ⟨fun _ => ⟨l, rfl⟩, fun _ => rfl⟩
  | cons x xs ih =>
    cases l with
    | nil => simp [startsWith]
    | cons c cs =>
      simp only [startsWith, Bool.and_eq_true, beq_iff_eq, ih]
      constructor
      · rintro ⟨rfl, t, rfl⟩
        exact ⟨t, rfl⟩
      · rintro ⟨t, ht⟩
        injection ht with h1 h2
        exact ⟨h1.symm, t, h2⟩

theorem startsWith_self_append (p t : List Char) : startsWith p (p ++ t) = true :=
  (startsWith_iff p (p ++ t)).mpr ⟨t, rfl⟩

theorem occursIn_cons (c : Char) {p l : List Char} (h : occursIn p l) :
    occursIn p (c :: l) := by
  obtain ⟨u, v, rfl⟩ := h
  exact ⟨c :: u, v, rfl⟩

theorem occursIn_append_left (pre : List Char) {p l : List Char} (h : occursIn p l) :
    occursIn p (pre ++ l) := by
  obtain ⟨u, v, rfl⟩ := h
  exact ⟨pre ++ u, v, by simp⟩

theorem hasOccur_iff (p l : List Char) : hasOccur p l = true ↔ occursIn p l := by
  induction l with
  | nil =>
    simp only [hasOccur, List.isEmpty_iff, occursIn]
    constructor
    · rintro rfl
      exact ⟨[], [], rfl⟩
    · rintro ⟨u, v, h⟩
      simpa using (List.append_eq_nil.mp (List.append_eq_nil.mp h.symm).1).2
  | cons c cs ih =>
    simp only [hasOccur, Bool.or_eq_true, startsWith_iff, ih]
    constructor
    · rintro (⟨t, ht⟩ | h)
      · exact ⟨[], t, by simpa using ht⟩
      · exact occursIn_cons c h
    · rintro ⟨u, v, huv⟩
      cases u with
      | nil => exact Or.inl ⟨v, by simpa using huv⟩
      | cons x xs =>
        injection huv with h1 h2
        exact Or.inr ⟨xs, v, h2⟩

/-! Facts about the split model. -/

theorem splitGo_skip (sep t r : List Char) (acc : List Char) :
    splitGo sep (t ++ r) t.length acc = splitGo sep r 0 acc := by
  induction t with
  | nil => rfl
  | cons d ds ih => exact ih

theorem splitGo_no_occurrence (sep : List Char) {s : List Char} (acc : List Char)
    (h : hasOccur sep s = false) : splitGo sep s 0 acc = [acc.reverse ++ s] := by
  induction s generalizing acc with
  | nil => simp [splitGo]
  | cons c cs ih =>
    have h1 : startsWith sep (c :: cs) = false := by
      cases hsw : startsWith sep (c :: cs)
      · rfl
      · rw [hasOccur, hsw] at h
        simp at h
    have h2 : hasOccur sep cs = false := by
      rw [hasOccur, h1] at h
      simpa using h
    simp [splitGo, h1, ih _ h2]

theorem splitGo_scan (sep : List Char) {a : List Char} (r acc : List Char)
    (h : ∀ i, i < a.length → startsWith sep ((a ++ r).drop i) = false) :
    splitGo sep (a ++ r) 0 acc = splitGo sep r 0 (a.reverse ++ acc) := by
  induction a generalizing acc with
  | nil => simp
  | cons x xs ih =>
    have h0 : startsWith sep (x :: (xs ++ r)) = false := by
      simpa using h 0 (by simp)
    have hrest : ∀ i, i < xs.length → startsWith sep ((xs ++ r).drop i) = false := by
      intro i hi
      simpa using h (i + 1) (by simpa using Nat.succ_lt_succ hi)
    rw [List.cons_append]
    simp only [splitGo, h0, Bool.false_and, Bool.false_eq_true, if_false]
    rw [ih _ hrest]
    simp

theorem splitGo_match (sep r acc : List Char) (hsep : sep ≠ []) :
    splitGo sep (sep ++ r) 0 acc = acc.reverse :: splitGo sep r 0 [] := by
  obtain ⟨m, ms, rfl⟩ : ∃ m ms, sep = m :: ms := by
    cases sep with
    | nil => exact absurd rfl hsep
    | cons m ms => exact ⟨m, ms, rfl⟩
  have hsw : startsWith (m :: ms) ((m :: ms) ++ r) = true := startsWith_self_append _ _
  rw [List.cons_append]
  simp only [splitGo, List.cons_append] at hsw ⊢
  rw [hsw]
  simp only [List.isEmpty_cons, Bool.not_false, Bool.and_true, if_true]
  have : (m :: ms).length - 1 = ms.length := by simp
  rw [this, splitGo_skip]

/-- Text already consumed by an open bracket-token attempt: the opening
bracket followed by the pending group characters in source order. -/
def pendingText : Option (List Char) → List Char
  | none => []
  | some pend => '[' :: pend.reverse

theorem scanBr_mem_occurs (l : List Char) (st : Option (List Char)) (tok : String)
    (h : tok ∈ scanBr st l) :
    occursIn ('[' :: (tok.data ++ [']'])) (pendingText st ++ l) := by
  induction l generalizing st with
  | nil => simp [scanBr] at h
  | cons c cs ih =>
    cases st with
    | none =>
      by_cases hc : c = '['
      · subst hc
        rw [scanBr, if_pos rfl] at h
        simpa [pendingText] using ih (some []) h
      · rw [scanBr, if_neg hc] at h
        exact occursIn_cons c (by simpa [pendingText] using ih none h)
    | some pend =>
      by_cases hc : c = ']'
      · subst hc
        rw [scanBr, if_pos rfl] at h
        rcases List.mem_cons.mp h with rfl | hmem
        · exact ⟨[], cs, by simp [pendingText]⟩
        · have base := ih none hmem
          simp only [pendingText, List.nil_append] at base
          have := occursIn_append_left ('[' :: pend.reverse ++ [']']) base
          simpa [pendingText] using this
      · by_cases ht : jsRegexTerm c = true
        · rw [scanBr, if_neg hc, if_pos ht] at h
          have base := ih none h
          simp only [pendingText, List.nil_append] at base
          have := occursIn_append_left ('[' :: pend.reverse ++ [c]) base
          simpa [pendingText] using this
        · rw [scanBr, if_neg hc, if_neg ht] at h
          have := ih (some (c :: pend)) h
          simpa [pendingText] using this

theorem scanBrackets_mem_occurs {l : List Char} {tok : String}
    (h : tok ∈ scanBrackets l) : occursIn ('[' :: (tok.data ++ [']'])) l := by
  simpa [pendingText] using scanBr_mem_occurs l none tok h

theorem jsSplitL_no_occurrence {sep s : List Char} (hocc : hasOccur sep s = false) :
    jsSplitL sep s = [s] := by
  have hsep : sep.isEmpty = false := by
    cases sep with
    | nil =>
      cases s with
      | nil => simp [hasOccur] at hocc
      | cons c cs => simp [hasOccur, startsWith] at hocc
    | cons m ms => rfl
  rw [jsSplitL, hsep]
  simpa using splitGo_no_occurrence sep [] hocc

/-! Concrete message contents used in scenario theorems and witnesses. -/

/-- Scenario 1 content from the specification. -/
def scenario1Content : String :=
  "The rate is 5%. [1]\n\n**Related Documents:**\n[1] Rate Sheet (http://example.com/a)\nClick to view\nDetail A\n---\n[2] Policy Doc\nClick to view\nDetail B"

/-- Content in which the separator literal occurs twice. -/
def twoSepContent : String := "A**Related Documents:**B**Related Documents:**C"

/-- Content whose source chunk has a detail line containing, but not equal
to, the navigation hint phrase. -/
def hintLineContent : String :=
  "See [1].\n\n**Related Documents:**\n[1] Doc\nAlso click to view here\nMore"

/-- Content whose only source chunk has no detail lines at all. -/
def noDetailContent : String :=
  "See [1].\n\n**Related Documents:**\n[1] Doc with a longer title"

/-- Content whose first chunk yields no id and whose second chunk is well
formed and cited. -/
def malformedChunkContent : String :=
  "See [2].\n\n**Related Documents:**\n[ broken chunk no close\nnoise\n---\n[2] Good Doc\nClick to view\nDetail"

/-- Content with a well-formed source block but no bracketed token in the
answer text. -/
def uncitedContent : String :=
  "Answer with no markers.\n\n**Related Documents:**\n[1] Doc Title here\nClick to view\nSome detail"

/-- Content that does not contain the separator literal. -/
def noSepContent : String := "No separator here [1], just an answer."

/-- C9: for every message whose role is user the visible-sources output is
the empty sequence, regardless of the content, even when the content
carries a well-formed, fully cited source block. -/
theorem user_messages_show_no_sources (content : String) :
    visibleSourceItems Role.user content = [] := by
  simp [visibleSourceItems]

theorem user_messages_show_no_sources_witness :
    visibleSourceItems Role.user scenario1Content = [] :=
  user_messages_show_no_sources scenario1Content

/-- C8: evaluating the handleFeedback model of ChatMessage.tsx at the
failing input: with feedback currently up, invoking with up clears the
state to none and passes none (the JS null, cast to the declared callback
type) to the onFeedback callback, contradicting the callback contract that
only up or down is ever passed; a plain set passes the set value. -/
theorem handleFeedback_toggle_off_passes_null :
    handleFeedback (some FeedbackValue.up) FeedbackValue.up = (none, none) ∧
    handleFeedback none FeedbackValue.up =
      (some FeedbackValue.up, some FeedbackValue.up) :=
  ⟨rfl, rfl⟩

/-- C10: toggleSource negates exactly the flag stored under the given id
(an absent key reads as collapsed and becomes expanded), leaves the flag of
every other id unchanged, and leaves the feedback value unchanged. -/
theorem toggleSource_flips_only_given_id (st : MessageState) (id k : String)
    (hk : k ≠ id) :
    lookupFlag (toggleSource st id).expandedSources id
        = !(lookupFlag st.expandedSources id) ∧
    lookupFlag (toggleSource st id).expandedSources k
        = lookupFlag st.expandedSources k ∧
    (toggleSource st id).feedback = st.feedback ∧
    (st.expandedSources.lookup id = none →
      lookupFlag (toggleSource st id).expandedSources id = true) := by
  have hbeq : (k == id) = false := beq_eq_false_iff_ne.mpr hk
  refine ⟨?_, ?_, rfl, ?_⟩
  · simp [lookupFlag, toggleSource, List.lookup]
  · simp [lookupFlag, toggleSource, List.lookup, hbeq]
  · intro h
    simp [lookupFlag, toggleSource, List.lookup, h]

theorem toggleSource_flips_only_given_id_witness :
    lookupFlag (toggleSource ⟨[("2", true)], some FeedbackValue.up⟩ "1").expandedSources "1"
        = !(lookupFlag [("2", true)] "1") ∧
    lookupFlag (toggleSource ⟨[("2", true)], some FeedbackValue.up⟩ "1").expandedSources "2"
        = lookupFlag [("2", true)] "2" ∧
    (toggleSource ⟨[("2", true)], some FeedbackValue.up⟩ "1").feedback
        = some FeedbackValue.up ∧
    (([("2", true)] : List (String × Bool)).lookup "1" = none →
      lookupFlag (toggleSource ⟨[("2", true)], some FeedbackValue.up⟩ "1").expandedSources "1" = true) :=
  toggleSource_flips_only_given_id ⟨[("2", true)], some FeedbackValue.up⟩ "1" "2" (by decide)

/-- C3 counterexample: with the separator occurring twice, the component
keeps only the text strictly between the first and second occurrences as
the raw source block; the second occurrence and the text after it are not
part of the source block, refuting the claim that nothing is discarded. -/
theorem split_discards_after_second_separator_cex :
    mainAnswerOf twoSepContent = "A" ∧
    sourcesRawOf twoSepContent = "B" ∧
    sourcesRawOf twoSepContent ≠ "B**Related Documents:**C" := by
  refine ⟨by decide, by decide, by decide⟩

/-- C4 counterexample: on the scenario 1 content the primaryAnswer produced
by the split is not the claimed string, because the two newline characters
before the separator stay in the part before the separator. -/
theorem scenario1_primary_answer_cex :
    mainAnswerOf scenario1Content ≠ "The rate is 5%. [1]" := by
  decide

/-- C4 amended: on the scenario 1 content the pipeline yields the
primaryAnswer with its trailing blank line and exactly one visible source
record, with id 1, title Rate Sheet, detail text Detail A and the URL;
source 2 is excluded because it is uncited. -/
theorem scenario1_pipeline_output :
    mainAnswerOf scenario1Content = "The rate is 5%. [1]\n\n" ∧
    visibleSourceItems Role.assistant scenario1Content =
      [{ id := "1", title := "Rate Sheet", details := "Detail A",
         url := some "http://example.com/a" }] := by
  refine ⟨by decide, by decide⟩

/-- C5: for every content without the separator literal, the split returns
the full text unchanged as primaryAnswer, the raw source block is empty,
and no sources are produced; the split is total, with no error case. -/
theorem splitter_total_without_separator (content : String)
    (h : jsIncludes content relatedDocsSep = false) :
    mainAnswerOf content = content ∧ sourcesRawOf content = "" ∧
    ∀ role, visibleSourceItems role content = [] := by
  have hocc : hasOccur relatedDocsSep.data content.data = false := h
  have hparts : splitParts content = [content] := by
    simp [splitParts, jsSplit, jsSplitL_no_occurrence hocc, stringMk_data]
  have hsr : sourcesRawOf content = "" := by simp [sourcesRawOf, hparts]
  refine ⟨by simp [mainAnswerOf, hparts], hsr, fun role => by simp [visibleSourceItems, hsr]⟩

theorem splitter_total_without_separator_witness :
    jsIncludes noSepContent relatedDocsSep = false ∧
    mainAnswerOf noSepContent = noSepContent ∧ sourcesRawOf noSepContent = "" ∧
    ∀ role, visibleSourceItems role noSepContent = [] :=
  ⟨by decide, (splitter_total_without_separator noSepContent (by decide)).1,
   (splitter_total_without_separator noSepContent (by decide)).2.1,
   (splitter_total_without_separator noSepContent (by decide)).2.2⟩

/-- C3 amended: when the separator occurs twice (content of the shape
A, separator, B, separator, C with no separator occurrence starting inside
A or inside B), the split partitions at every occurrence: primaryAnswer is
the text before the first occurrence and the raw source block is exactly
the text strictly between the first and second occurrences; the second
occurrence and the text after it are discarded, not kept in the source
block. -/
theorem split_keeps_between_separators (A B C : String)
    (h1 : ∀ i, i < A.length →
      startsWith relatedDocsSep.data
        ((A ++ relatedDocsSep ++ B ++ relatedDocsSep ++ C).data.drop i) = false)
    (h2 : ∀ i, i < B.length →
      startsWith relatedDocsSep.data ((B ++ relatedDocsSep ++ C).data.drop i) = false) :
    mainAnswerOf (A ++ relatedDocsSep ++ B ++ relatedDocsSep ++ C) = A ∧
    sourcesRawOf (A ++ relatedDocsSep ++ B ++ relatedDocsSep ++ C) = B := by
  have hsd : relatedDocsSep.data ≠ [] := by decide
  have hdata : (A ++ relatedDocsSep ++ B ++ relatedDocsSep ++ C).data
      = A.data ++ (relatedDocsSep.data ++ (B.data ++ (relatedDocsSep.data ++ C.data))) := by
    simp [stringData_append]
  have hdata2 : (B ++ relatedDocsSep ++ C).data
      = B.data ++ (relatedDocsSep.data ++ C.data) := by
    simp [stringData_append]
  have h1' : ∀ i, i < A.data.length → startsWith relatedDocsSep.data
      ((A.data ++ (relatedDocsSep.data ++ (B.data ++ (relatedDocsSep.data ++ C.data)))).drop i) = false := by
    intro i hi
    have := h1 i hi
    rwa [hdata] at this
  have h2' : ∀ i, i < B.data.length → startsWith relatedDocsSep.data
      ((B.data ++ (relatedDocsSep.data ++ C.data)).drop i) = false := by
    intro i hi
    have := h2 i hi
    rwa [hdata2] at this
  have hgo : splitGo relatedDocsSep.data
      (A.data ++ (relatedDocsSep.data ++ (B.data ++ (relatedDocsSep.data ++ C.data)))) 0 []
      = A.data :: B.data :: splitGo relatedDocsSep.data C.data 0 [] := by
    rw [splitGo_scan relatedDocsSep.data _ [] h1', List.append_nil,
      splitGo_match _ _ _ hsd, List.reverse_reverse]
    congr 1
    rw [splitGo_scan relatedDocsSep.data _ [] h2', List.append_nil,
      splitGo_match _ _ _ hsd, List.reverse_reverse]
  have hne : relatedDocsSep.data.isEmpty = false := by decide
  have hparts : splitParts (A ++ relatedDocsSep ++ B ++ relatedDocsSep ++ C)
      = A :: B :: (splitGo relatedDocsSep.data C.data 0 []).map String.mk := by
    simp only [splitParts, jsSplit, jsSplitL, hne, Bool.false_eq_true, if_false, hdata, hgo,
      List.map_cons, stringMk_data]
  exact ⟨by simp [mainAnswerOf, hparts], by simp [sourcesRawOf, hparts]⟩

theorem split_keeps_between_separators_witness :
    (∀ i, i < ("Answer." : String).length →
      startsWith relatedDocsSep.data
        ((("Answer." : String) ++ relatedDocsSep ++ "[1] Doc" ++ relatedDocsSep ++ "tail").data.drop i) = false) ∧
    (∀ i, i < ("[1] Doc" : String).length →
      startsWith relatedDocsSep.data
        ((("[1] Doc" : String) ++ relatedDocsSep ++ "tail").data.drop i) = false) ∧
    mainAnswerOf (("Answer." : String) ++ relatedDocsSep ++ "[1] Doc" ++ relatedDocsSep ++ "tail") = "Answer." ∧
    sourcesRawOf (("Answer." : String) ++ relatedDocsSep ++ "[1] Doc" ++ relatedDocsSep ++ "tail") = "[1] Doc" :=
  ⟨by decide, by decide,
   (split_keeps_between_separators "Answer." "[1] Doc" "tail" (by decide) (by decide)).1,
   (split_keeps_between_separators "Answer." "[1] Doc" "tail" (by decide) (by decide)).2⟩

/-- C1: for every role and content, the visible-sources output is a
subsequence of the parsed source records (so every output record is a
parsed record and the relative order of kept records is their order of
appearance in the raw source block), and the id of every output record
occurs literally as a bracketed token in the primaryAnswer. -/
theorem visible_sources_sublist_and_cited (role : Role) (content : String) :
    List.Sublist (visibleSourceItems role content)
      (parseSources (sourcesRawOf content)) ∧
    ∀ r ∈ visibleSourceItems role content,
      occursIn ('[' :: (r.id.data ++ [']'])) (mainAnswerOf content).data := by
  by_cases hg : sourcesRawOf content = "" ∨ role = Role.user
  · rw [visibleSourceItems, if_pos hg]
    exact ⟨List.nil_sublist _, by simp⟩
  · rw [visibleSourceItems, if_neg hg]
    refine ⟨List.filter_sublist _, ?_⟩
    intro r hr
    have hp := of_decide_eq_true (List.mem_filter.mp hr).2
    exact scanBrackets_mem_occurs hp.2

theorem visible_sources_sublist_and_cited_witness :
    List.Sublist (visibleSourceItems Role.assistant scenario1Content)
      (parseSources (sourcesRawOf scenario1Content)) ∧
    ∀ r ∈ visibleSourceItems Role.assistant scenario1Content,
      occursIn ('[' :: (r.id.data ++ [']'])) (mainAnswerOf scenario1Content).data :=
  visible_sources_sublist_and_cited Role.assistant scenario1Content

/-- C2: whenever no parsed source id is a member of the citation set (in
particular when the primaryAnswer contains no bracketed token at all), the
visible-sources output is the empty sequence; the component never falls
back to showing all parsed sources. -/
theorem visible_sources_empty_when_uncited (role : Role) (content : String)
    (h : citedIdsOf (mainAnswerOf content) = [] ∨
      ∀ r ∈ parseSources (sourcesRawOf content),
        r.id ∉ citedIdsOf (mainAnswerOf content)) :
    visibleSourceItems role content = [] := by
  by_cases hg : sourcesRawOf content = "" ∨ role = Role.user
  · rw [visibleSourceItems, if_pos hg]
  · rw [visibleSourceItems, if_neg hg]
    refine List.filter_eq_nil_iff.mpr ?_
    intro r hr hdec
    have hp := of_decide_eq_true hdec
    rcases h with h | h
    · rw [h] at hp
      exact absurd hp.2 (List.not_mem_nil _)
    · exact h r hr hp.2

theorem visible_sources_empty_when_uncited_witness :
    citedIdsOf (mainAnswerOf uncitedContent) = [] ∧
    visibleSourceItems Role.assistant uncitedContent = [] :=
  ⟨by decide,
   visible_sources_empty_when_uncited Role.assistant uncitedContent (Or.inl (by decide))⟩

/-- C6: no record in the visible-sources output has an empty id; a chunk
from which no id can be extracted is dropped by the final filter, without
error and without affecting the other chunks. -/
theorem visible_source_ids_nonempty (role : Role) (content : String)
    (r : SourceRecord) (hr : r ∈ visibleSourceItems role content) :
    r.id ≠ "" := by
  by_cases hg : sourcesRawOf content = "" ∨ role = Role.user
  · rw [visibleSourceItems, if_pos hg] at hr
    exact absurd hr (List.not_mem_nil _)
  · rw [visibleSourceItems, if_neg hg] at hr
    exact (of_decide_eq_true (List.mem_filter.mp hr).2).1

theorem visible_source_ids_nonempty_witness :
    ({ id := "2", title := "Good Doc", details := "Detail", url := none } : SourceRecord)
      ∈ visibleSourceItems Role.assistant malformedChunkContent ∧
    ({ id := "2", title := "Good Doc", details := "Detail", url := none } : SourceRecord).id ≠ "" :=
  ⟨by decide,
   visible_source_ids_nonempty Role.assistant malformedChunkContent _ (by decide)⟩

theorem jsToLower_data (s : String) : (jsToLower s).data = s.data.map Char.toLower := rfl

theorem startsWith_append_cons (P : List Char) {X Y : List Char} {d : Char}
    (h : startsWith P (X ++ d :: Y) = true) : d ∈ P ∨ startsWith P X = true := by
  induction P generalizing X with
  | nil => exact Or.inr rfl
  | cons p ps ih =>
    cases X with
    | nil =>
      simp only [List.nil_append, startsWith, Bool.and_eq_true, beq_iff_eq] at h
      exact Or.inl (h.1 ▸ List.mem_cons_self p ps)
    | cons x xs =>
      simp only [List.cons_append, startsWith, Bool.and_eq_true, beq_iff_eq] at h
      rcases ih h.2 with hd | hsw
      · exact Or.inl (List.mem_cons_of_mem _ hd)
      · exact Or.inr (by simp [startsWith, h.1, hsw])

theorem hasOccur_append_cons (P : List Char) {X Y : List Char} {d : Char}
    (h : hasOccur P (X ++ d :: Y) = true) :
    d ∈ P ∨ hasOccur P X = true ∨ hasOccur P Y = true := by
  induction X with
  | nil =>
    simp only [List.nil_append, hasOccur, Bool.or_eq_true] at h
    rcases h with h | h
    · rcases startsWith_append_cons P (X := []) h with hd | hsw
      · exact Or.inl hd
      · cases P with
        | nil => exact Or.inr (Or.inl rfl)
        | cons p ps => simp [startsWith] at hsw
    · exact Or.inr (Or.inr h)
  | cons a X2 ih =>
    simp only [List.cons_append, hasOccur, Bool.or_eq_true] at h
    rcases h with h | h
    · rcases startsWith_append_cons P (X := a :: X2) (by simpa using h) with hd | hsw
      · exact Or.inl hd
      · exact Or.inr (Or.inl (by simp [hasOccur, hsw]))
    · rcases ih h with hd | hX | hY
      · exact Or.inl hd
      · exact Or.inr (Or.inl (by simp [hasOccur, hX]))
      · exact Or.inr (Or.inr hY)

theorem hasOccur_joinLines_false (P : List Char) (hP0 : P ≠ []) (hnl : '\n' ∉ P)
    (parts : List String) (h : ∀ l ∈ parts, hasOccur P l.data = false) :
    hasOccur P (joinLines parts).data = false := by
  induction parts with
  | nil =>
    cases P with
    | nil => exact absurd rfl hP0
    | cons p ps => rfl
  | cons l ls ih =>
    cases ls with
    | nil => simpa [joinLines] using h l (by simp)
    | cons l2 ls2 =>
      have hdata : (joinLines (l :: l2 :: ls2)).data
          = l.data ++ '\n' :: (joinLines (l2 :: ls2)).data := by
        simp [joinLines, stringData_append]
      rw [hdata]
      refine Bool.eq_false_iff.mpr fun hoc => ?_
      rcases hasOccur_append_cons P hoc with hd | hX | hY
      · exact hnl hd
      · rw [h l (by simp)] at hX
        exact Bool.false_ne_true hX
      · rw [ih (fun x hx => h x (List.mem_cons_of_mem _ hx))] at hY
        exact Bool.false_ne_true hY

theorem jsToLower_joinLines (parts : List String) :
    (jsToLower (joinLines parts)).data = (joinLines (parts.map jsToLower)).data := by
  have hnl : Char.toLower '\n' = '\n' := rfl
  induction parts with
  | nil => rfl
  | cons l ls ih =>
    cases ls with
    | nil => rfl
    | cons l2 ls2 =>
      simp only [joinLines, List.map_cons] at ih ⊢
      simp [jsToLower_data, stringData_append, List.map_append, hnl] at ih ⊢
      exact ih

theorem recordOfClean_details_no_hint (clean : String) (url : Option String) :
    jsIncludes (jsToLower (recordOfClean clean url).details) "click to view" = false := by
  show hasOccur ("click to view" : String).data
      (jsToLower (recordOfClean clean url).details).data = false
  simp only [recordOfClean]
  rw [jsToLower_joinLines]
  refine hasOccur_joinLines_false _ (by decide) (by decide) _ ?_
  intro l2 hl2
  obtain ⟨l, hl, rfl⟩ := List.mem_map.mp hl2
  have hp := List.of_mem_filter hl
  have : jsIncludes (jsToLower l) "click to view" = false := by simpa using hp
  exact this

theorem parseChunk_details_no_hint (s : String) :
    jsIncludes (jsToLower (parseChunk s).details) "click to view" = false := by
  cases h : findUrl 0 s.data with
  | none =>
    simp only [parseChunk, h]
    exact recordOfClean_details_no_hint _ _
  | some p =>
    obtain ⟨i, g⟩ := p
    simp only [parseChunk, h]
    exact recordOfClean_details_no_hint _ _

/-- Detail text as the amended specification words it: within the
surviving chunk, after removing the URL match, the remaining non-blank
trimmed lines after the title line, joined with line breaks, excluding any
line that contains the phrase click to view case-insensitively. -/
def specDetailText (chunk : String) : String :=
  let stripped :=
    match findUrl 0 chunk.data with
    | some (i, g) =>
      jsTrim (String.mk (chunk.data.take i ++ chunk.data.drop (i + (g.length + 2))))
    | none => chunk
  let remaining := ((((jsSplit "\n" stripped).map jsTrim).filter (fun l => !l.isEmpty)).drop 1)
  joinLines (remaining.filter (fun l => !(jsIncludes (jsToLower l) "click to view")))

theorem parseChunk_details_eq_spec (s : String) :
    (parseChunk s).details = specDetailText s := by
  cases h : findUrl 0 s.data with
  | none => simp only [parseChunk, specDetailText, recordOfClean, h]
  | some p =>
    obtain ⟨i, g⟩ := p
    simp only [parseChunk, specDetailText, recordOfClean, h]

/-- C7 counterexample: a detail line that contains, but is not purely, the
navigation hint phrase is dropped by the component, so the record's detail
text is not the join of all remaining non-blank lines with only the purely
hint lines removed, refuting the claim as stated. -/
theorem detail_filter_drops_containing_lines_cex :
    visibleSourceItems Role.assistant hintLineContent =
      [{ id := "1", title := "Doc", details := "More", url := none }] ∧
    ({ id := "1", title := "Doc", details := "More", url := none } : SourceRecord).details
      ≠ "Also click to view here\nMore" :=
  ⟨by decide, by decide⟩

/-- C7 amended: the detail text of every visible record is computed from
its chunk as the remaining non-blank lines after the title line joined
with line breaks, excluding every line that contains the phrase click to
view case-insensitively (not only lines purely equal to it) — so no detail
text ever contains the phrase; and a chunk with no detail lines yields a
record with empty detail text that is still included when its id is
present and cited. -/
theorem detail_text_amended :
    (∀ role content r, r ∈ visibleSourceItems role content →
      ∃ chunk ∈ sourceChunks (sourcesRawOf content),
        r = parseChunk chunk ∧ r.details = specDetailText chunk ∧
        jsIncludes (jsToLower r.details) "click to view" = false) ∧
    visibleSourceItems Role.assistant noDetailContent =
      [{ id := "1", title := "Doc with a longer title", details := "", url := none }] := by
  constructor
  · intro role content r hr
    by_cases hg : sourcesRawOf content = "" ∨ role = Role.user
    · rw [visibleSourceItems, if_pos hg] at hr
      exact absurd hr (List.not_mem_nil _)
    · rw [visibleSourceItems, if_neg hg] at hr
      have hr1 : r ∈ parseSources (sourcesRawOf content) := (List.mem_filter.mp hr).1
      rw [parseSources] at hr1
      obtain ⟨chunk, hc, rfl⟩ := List.mem_map.mp hr1
      exact ⟨chunk, hc, rfl, parseChunk_details_eq_spec chunk, parseChunk_details_no_hint chunk⟩
  · decide
